import Mathlib

/-!
# Markdown-table repair and chunked-streaming pipeline: verification

Shallow embedding of the table-normalization and chunk-sequencing code in
`src/app/api/chat/route.ts` of wongchunghang/cloudflare-ai-chat.

Lines and cells are modelled as `List Char` (the JS code works on strings
character-wise: `trim`, `split("|")`, `startsWith("|")`, ...).  Each
definition mirrors one function of the source file; the concatenated source
contains two generations of the pipeline and both are embedded:

* generation 1 (route.ts lines 105-387): `countColumns`, `normalizeTableRow`,
  `createSeparatorRow`, `isSeparatorRow`, `parseAndFixTable`;
* generation 2 (route.ts lines 670-969, the set that is live because later
  `function` declarations win): `isTableRow`, `isTableSeparator`,
  `countTableColumns`, `normalizeTableRow` (identical body to generation 1),
  `createTableSeparator`, `normalizeTable`, `createStreamableChunks`.
-/

namespace MDTable

/-- A line (or a cell) of text: a list of characters. -/
abbrev Line := List Char

/-- Abbreviation for turning a string literal into a `Line`. -/
def toL (s : String) : Line := s.toList

/-- Whitespace as matched by the JS `\s` regex class and `String.trim`
(restricted to the ASCII whitespace characters that can occur here). -/
def isWS (c : Char) : Bool :=
  c == ' ' || c == '\t' || c == '\n' || c == '\r'

/-- `line.trim()`: remove leading and trailing whitespace. -/
def trimChars (l : Line) : Line :=
  ((l.dropWhile isWS).reverse.dropWhile isWS).reverse

/-- `text.split(sep)` for a one-character separator: split a character list
at every occurrence of `sep`.  `splitOnChar sep []` is `[[]]`, matching
`"".split(sep)` which is `[""]` in JS. -/
def splitOnChar (sep : Char) : List Char → List (List Char)
  | [] => [[]]
  | c :: rest =>
    if c == sep then
      [] :: splitOnChar sep rest
    else
      match splitOnChar sep rest with
      | [] => [[c]]
      | h :: t => (c :: h) :: t

/-- `parts.join(sep)` (JS `Array.prototype.join` semantics). -/
def joinWith (sep : List Char) : List (List Char) → List Char
  | [] => []
  | [x] => x
  | x :: xs => x ++ sep ++ joinWith sep xs

/-- The `" | "` separator used by the row rebuilder and by the cell-merge. -/
def sepSL : Line := [' ', '|', ' ']

/-- route.ts `isTableRow` (line 671): the trimmed line must contain at least
one pipe and have length greater than 2. -/
def isTableRow (line : Line) : Bool :=
  let trimmed := trimChars line
  trimmed.contains '|' && decide (2 < trimmed.length)

/-- The optional-colon `:?` of the separator regex: consume a single leading
colon when present. -/
def dropColon (cs : List Char) : List Char :=
  if cs.head? = some ':' then cs.tail else cs

/-- One `\s*:?-+:?\s*` segment of the separator regex
`/^\|\s*:?-+:?\s*(\|\s*:?-+:?\s*)*\|?\s*$/` (route.ts lines 186 and 681).
Returns the unconsumed suffix on success.  Matching is deterministic: after
the greedy `\s*`, a colon is taken only when present, `-+` must then see at
least one hyphen, and none of the later alternatives can re-consume what a
greedy quantifier took (the characters at each boundary differ). -/
def parseSeg (cs : List Char) : Option (List Char) :=
  if (dropColon (cs.dropWhile isWS)).head? = some '-' then
    some ((dropColon
      (((dropColon (cs.dropWhile isWS)).tail).dropWhile (fun x => x == '-'))).dropWhile isWS)
  else none

/-- The `(\|\s*:?-+:?\s*)*\|?\s*$` part of the separator regex, run with
explicit fuel so that the recursion is structural.  Each loop iteration
consumes the leading `|` plus at least one hyphen (two or more characters)
while the fuel drops by one, so with initial fuel `cs.length` the
fuel-exhausted branch is unreachable and the function implements the regex
exactly. -/
def sepLoopF : Nat → List Char → Bool
  | _, [] => true
  | 0, cs => cs.all isWS
  | fuel + 1, c :: rest =>
    if c = '|' then
      match parseSeg rest with
      | some rest2 => sepLoopF fuel rest2
      | none => rest.all isWS
    else (c :: rest).all isWS

/-- The separator-regex loop at its natural fuel. -/
def sepLoop (cs : List Char) : Bool := sepLoopF cs.length cs

/-- Full match of `/^\|\s*:?-+:?\s*(\|\s*:?-+:?\s*)*\|?\s*$/` against an
already-trimmed line: a leading pipe, one mandatory segment, then the loop. -/
def sepRegexAccepts (trimmed : Line) : Bool :=
  match trimmed with
  | c :: rest =>
    if c = '|' then
      match parseSeg rest with
      | some rest2 => sepLoop rest2
      | none => false
    else false
  | [] => false

/-- route.ts `isTableSeparator` (lines 678-683, generation 2): the trimmed
line must match the separator regex. -/
def isTableSeparator (line : Line) : Bool :=
  sepRegexAccepts (trimChars line)

/-- Characters matched by `/^[\s|:-]+$/` (route.ts line 192). -/
def tableSepChar (c : Char) : Bool :=
  isWS c || c == '|' || c == ':' || c == '-'

/-- route.ts `isSeparatorRow` (lines 181-197, generation 1): the regex match
OR-ed with the looser "only `|`, `-`, `:` and whitespace" check
`/^[\s|:-]+$/` (which needs no hyphen at all). -/
def isSeparatorRow (line : Line) : Bool :=
  let trimmed := trimChars line
  sepRegexAccepts trimmed || (!trimmed.isEmpty && trimmed.all tableSepChar)

/-- `if (cleaned.startsWith("|")) ...; if (cleaned.endsWith("|")) ...`:
strip one optional leading and one optional trailing pipe. -/
def stripEdgePipes (cleaned : Line) : Line :=
  let c1 := if cleaned.head? = some '|' then cleaned.tail else cleaned
  if c1.getLast? = some '|' then c1.dropLast else c1

/-- `cleaned.split("|").map(cell => cell.trim())`. -/
def cellsOf (l : Line) : List Line :=
  (splitOnChar '|' l).map trimChars

/-- The shared cell-parsing rule of `countColumns` / `countTableColumns` /
`normalizeTableRow`: trim, strip one optional leading and one optional
trailing pipe, split on `|`, trim every piece. -/
def parseCells (row : Line) : List Line :=
  cellsOf (stripEdgePipes (trimChars row))

/-- route.ts `countTableColumns` (lines 770-786, generation 2; `countColumns`
at lines 112-130 is the identical generation-1 body): number of NON-empty
trimmed cells, 0 when the row has no pipe. -/
def countTableColumns (row : Line) : Nat :=
  if row.contains '|' = false then 0
  else ((parseCells row).filter (fun cell => !cell.isEmpty)).length

/-- Generation-1 `countColumns` (route.ts lines 112-130): same body. -/
def countColumns (row : Line) : Nat := countTableColumns row

/-- The cell-count adjustment inside `normalizeTableRow` (route.ts lines
148-161 and 801-812): merge extras into the last kept cell when too many
(`cells.slice(targetColumns - 1)` joined with `" | "`), pad with empty cells
when too few (the closed form of the `while (cells.length < targetColumns)
cells.push("")` loop), unchanged otherwise. -/
def adjustCells (cells : List Line) (targetColumns : Nat) : List Line :=
  if targetColumns < cells.length then
    cells.take (targetColumns - 1) ++ [joinWith sepSL (cells.drop (targetColumns - 1))]
  else if cells.length < targetColumns then
    cells ++ List.replicate (targetColumns - cells.length) []
  else cells

/-- `"| " + cells.join(" | ") + " |"` (route.ts lines 166 and 815). -/
def rebuildRow (cells : List Line) : Line :=
  '|' :: ' ' :: (joinWith sepSL cells ++ [' ', '|'])

/-- route.ts `normalizeTableRow` (lines 133-169 and, with identical body,
789-816): rows without a pipe are returned unchanged; otherwise parse the
cells, adjust their number to `targetColumns` and rebuild. -/
def normalizeTableRow (row : Line) (targetColumns : Nat) : Line :=
  if row.contains '|' = false then row
  else rebuildRow (adjustCells (parseCells row) targetColumns)

/-- route.ts `createTableSeparator` (lines 819-822; `createSeparatorRow` at
lines 172-178 is identical): `"| " + Array(columns).fill("---").join(" | ")
+ " |"`. -/
def createTableSeparator (columns : Nat) : Line :=
  rebuildRow (List.replicate columns ['-', '-', '-'])

/-- Generation-1 `createSeparatorRow` (route.ts lines 172-178): same body. -/
def createSeparatorRow (columns : Nat) : Line := createTableSeparator columns

/-- The `validRows`-then-`dataRows` computation of route.ts lines 696-718:
trim, keep non-empty table rows, then drop separator rows (the source
partitions separators out with a loop; partitioning is the same as
filtering). -/
def dataRowsOf (tableLines : List Line) : List Line :=
  ((tableLines.map trimChars).filter (fun l => !l.isEmpty && isTableRow l)).filter
    (fun r => !isTableSeparator r)

/-- route.ts `normalizeTable` (lines 686-767), exposed as the list of emitted
rows.  `none` stands for every `return ""` early exit (empty input, no valid
rows, no data rows, zero header columns — the first two collapse into
`dataRowsOf tableLines = []`).  On success the result is the rebuilt header,
the fresh separator, then the remaining rebuilt data rows. -/
def normalizeTableRows (tableLines : List Line) : Option (List Line) :=
  match dataRowsOf tableLines with
  | [] => none
  | headerRow :: restRows =>
    if countTableColumns headerRow = 0 then none
    else
      some (normalizeTableRow headerRow (countTableColumns headerRow) ::
        createTableSeparator (countTableColumns headerRow) ::
        restRows.map (fun r => normalizeTableRow r (countTableColumns headerRow)))

/-- route.ts `normalizeTable` as the source writes it: the emitted rows
joined with `"\n"`, or `""` on the failure paths. -/
def normalizeTable (tableLines : List Line) : Line :=
  match normalizeTableRows tableLines with
  | none => []
  | some rows => joinWith ['\n'] rows

/-- route.ts `parseAndFixTable` (lines 200-273, generation 1): split on
newlines, trim, keep non-empty pipe lines, drop separator rows
(`isSeparatorRow`), take the column count from the first remaining row,
normalize every row, insert a separator after the header — and then
`fixedRows.splice(1, 1)` (line 267) removes the second row, i.e. the
separator that was just inserted. -/
def parseAndFixTable (tableText : Line) : List Line :=
  let lines := ((splitOnChar '\n' tableText).map trimChars).filter
    (fun l => !l.isEmpty && l.contains '|')
  let nonSeparatorLines := lines.filter (fun l => !isSeparatorRow l)
  match nonSeparatorLines with
  | [] => []
  | headerRow :: restRows =>
    let targetColumns := countColumns headerRow
    if targetColumns = 0 then []
    else
      let fixedRows := normalizeTableRow headerRow targetColumns ::
        createSeparatorRow targetColumns ::
        restRows.map (fun l => normalizeTableRow l targetColumns)
      fixedRows.take 1 ++ fixedRows.drop 2

/-- Output chunk of `createStreamableChunks`: `{type: "text" | "table",
content}`. -/
inductive Chunk
  | text (content : Line)
  | table (content : Line)
deriving DecidableEq, Repr

/-- The mutable locals of the generation-2 `createStreamableChunks` loop
(route.ts lines 853-858). -/
structure CSState where
  chunks : List Chunk
  currentTextChunk : Line
  inTable : Bool
  currentTableLines : List Line
deriving DecidableEq, Repr

/-- The look-ahead at a potential table start (route.ts lines 871-883): scan
up to 4 following lines; a table row confirms, a non-empty non-table line
cancels, empty lines are skipped; running out of lines or fuel cancels. -/
def lookahead : List Line → Nat → Bool
  | _, 0 => false
  | [], _ => false
  | l :: rest, k + 1 =>
    let nextLine := trimChars l
    if isTableRow nextLine then true
    else if !nextLine.isEmpty then false
    else lookahead rest k

/-- `currentTextChunk += (currentTextChunk ? "\n" : "") + line`. -/
def appendText (cur line : Line) : Line :=
  if cur.isEmpty then line else cur ++ '\n' :: line

/-- One iteration of the generation-2 `createStreamableChunks` loop
(route.ts lines 860-942) on the current line; `rest` is the list of lines
after the current one (the look-ahead reads at most 4 of them). -/
def chunkStep (st : CSState) (line : Line) (rest : List Line) : CSState :=
  let trimmedLine := trimChars line
  if !st.inTable && isTableRow trimmedLine then
    if lookahead rest 4 then
      { chunks := st.chunks ++
          (if !(trimChars st.currentTextChunk).isEmpty then
            [Chunk.text (trimChars st.currentTextChunk)] else []),
        currentTextChunk := [],
        inTable := true,
        currentTableLines := [line] }
    else
      { st with currentTextChunk := appendText st.currentTextChunk line }
  else if st.inTable && isTableRow trimmedLine then
    { st with currentTableLines := st.currentTableLines ++ [line] }
  else if st.inTable && !isTableRow trimmedLine then
    let normalizedTable := normalizeTable st.currentTableLines
    { chunks := st.chunks ++
        (if !(trimChars normalizedTable).isEmpty then
          [Chunk.table normalizedTable] else []),
      currentTextChunk := if !trimmedLine.isEmpty then line else st.currentTextChunk,
      inTable := false,
      currentTableLines := [] }
  else if !st.inTable then
    { st with currentTextChunk := appendText st.currentTextChunk line }
  else st

/-- The loop over all lines. -/
def chunkLoop : CSState → List Line → CSState
  | st, [] => st
  | st, line :: rest => chunkLoop (chunkStep st line rest) rest

/-- The first flush after the loop (route.ts lines 944-953): an open table
collection is normalized and emitted when its normalization is non-empty. -/
def flushTable (st : CSState) : List Chunk :=
  if st.inTable && !st.currentTableLines.isEmpty then
    st.chunks ++
      (if !(trimChars (normalizeTable st.currentTableLines)).isEmpty then
        [Chunk.table (normalizeTable st.currentTableLines)] else [])
  else st.chunks

/-- The flushes after the loop (route.ts lines 944-959): the table flush,
then any remaining text emitted trimmed. -/
def finalizeChunks (st : CSState) : List Chunk :=
  if !(trimChars st.currentTextChunk).isEmpty then
    flushTable st ++ [Chunk.text (trimChars st.currentTextChunk)]
  else flushTable st

/-- route.ts `createStreamableChunks` (lines 850-969, generation 2 — the one
in force): split the text on newlines and run the table-aware loop. -/
def createStreamableChunks (text : Line) : List Chunk :=
  finalizeChunks (chunkLoop ⟨[], [], false, []⟩ (splitOnChar '\n' text))

/-! ## Basic lemmas about `splitOnChar`, `joinWith` and `trimChars` -/

theorem splitOnChar_ne_nil (sep : Char) (l : List Char) : splitOnChar sep l ≠ [] := by
  cases l with
  | nil => simp [splitOnChar]
  | cons c rest =>
    simp only [splitOnChar]
    by_cases hc : (c == sep) = true
    · simp [hc]
    · simp only [hc, if_false]
      cases splitOnChar sep rest <;> simp

theorem splitOnChar_cons_of_ne (sep c : Char) (l : List Char) (hc : (c == sep) = false) :
    splitOnChar sep (c :: l) =
      match splitOnChar sep l with
      | [] => [[c]]
      | h :: t => (c :: h) :: t := by
  simp [splitOnChar, hc]

theorem splitOnChar_append_sep (sep : Char) (xs ys : List Char) :
    splitOnChar sep (xs ++ sep :: ys) = splitOnChar sep xs ++ splitOnChar sep ys := by
  induction xs with
  | nil => simp [splitOnChar]
  | cons c xs ih =>
    by_cases hc : (c == sep) = true
    · simp only [List.cons_append, splitOnChar, hc, if_true]
      exact congrArg (List.cons []) ih
    · rw [List.cons_append, splitOnChar_cons_of_ne sep c _ (by simpa using hc),
        splitOnChar_cons_of_ne sep c _ (by simpa using hc), ih]
      cases hs : splitOnChar sep xs with
      | nil => exact absurd hs (splitOnChar_ne_nil sep xs)
      | cons h t => simp

theorem splitOnChar_of_not_mem (sep : Char) (l : List Char) (h : sep ∉ l) :
    splitOnChar sep l = [l] := by
  induction l with
  | nil => simp [splitOnChar]
  | cons c rest ih =>
    have hc : (c == sep) = false := by
      simp only [beq_eq_false_iff_ne, ne_eq]
      intro he; exact h (he ▸ List.mem_cons_self c rest)
    rw [splitOnChar_cons_of_ne sep c rest hc,
      ih (fun hm => h (List.mem_cons_of_mem c hm))]

theorem not_mem_of_mem_splitOnChar (sep : Char) (l p : List Char)
    (hp : p ∈ splitOnChar sep l) : sep ∉ p := by
  induction l generalizing p with
  | nil =>
    simp only [splitOnChar, List.mem_singleton] at hp
    simp [hp]
  | cons c rest ih =>
    by_cases hc : (c == sep) = true
    · simp only [splitOnChar, hc, if_true, List.mem_cons] at hp
      rcases hp with rfl | hp
      · simp
      · exact ih p hp
    · rw [splitOnChar_cons_of_ne sep c rest (by simpa using hc)] at hp
      cases hs : splitOnChar sep rest with
      | nil => exact absurd hs (splitOnChar_ne_nil sep rest)
      | cons h t =>
        rw [hs] at hp
        rcases List.mem_cons.mp hp with rfl | hp
        · intro hmem
          rcases List.mem_cons.mp hmem with he | hmem
          · exact absurd (beq_iff_eq.mpr he.symm) (by simpa using hc)
          · exact ih h (hs ▸ List.mem_cons_self h t) hmem
        · exact ih p (hs ▸ List.mem_cons_of_mem h hp)

theorem splitOnChar_snoc_of_ne (sep c : Char) (l : List Char) (hc : (c == sep) = false) :
    ∃ h t, splitOnChar sep l = h ++ [t] ∧ splitOnChar sep (l ++ [c]) = h ++ [t ++ [c]] := by
  induction l with
  | nil =>
    refine ⟨[], [], by simp [splitOnChar], ?_⟩
    simp [splitOnChar, hc]
  | cons a rest ih =>
    obtain ⟨h, t, h1, h2⟩ := ih
    by_cases ha : (a == sep) = true
    · exact ⟨[] :: h, t, by simp [splitOnChar, ha, h1], by simp [splitOnChar, ha, h2]⟩
    · rw [List.cons_append, splitOnChar_cons_of_ne sep a _ (by simpa using ha)]
      rw [splitOnChar_cons_of_ne sep a _ (by simpa using ha), h1]
      cases h with
      | nil =>
        refine ⟨[], a :: t, by simp, ?_⟩
        simp only [List.nil_append] at h2
        simp [h2]
      | cons h0 hs =>
        refine ⟨(a :: h0) :: hs, t, by simp, ?_⟩
        simp only [List.cons_append] at h2
        simp [h2]

theorem joinWith_cons_of_ne_nil (s x : List Char) (t : List (List Char)) (ht : t ≠ []) :
    joinWith s (x :: t) = x ++ s ++ joinWith s t := by
  cases t with
  | nil => exact absurd rfl ht
  | cons y ys => simp [joinWith]

theorem joinWith_append_join (s : List Char) (l1 l2 : List (List Char)) (h2 : l2 ≠ []) :
    joinWith s (l1 ++ [joinWith s l2]) = joinWith s (l1 ++ l2) := by
  induction l1 with
  | nil => simp [joinWith]
  | cons a l1 ih =>
    rw [List.cons_append, List.cons_append,
      joinWith_cons_of_ne_nil s a _ (by simp),
      joinWith_cons_of_ne_nil s a _ (by simp [h2]), ih]

/-! ### Trim lemmas -/

theorem dropWhile_append_of_eq_nil {p : Char → Bool} {l : List Char}
    (h : l.dropWhile p = []) (m : List Char) :
    (l ++ m).dropWhile p = m.dropWhile p := by
  induction l with
  | nil => simp
  | cons c rest ih =>
    by_cases hc : p c = true
    · rw [List.dropWhile_cons, if_pos hc] at h
      rw [List.cons_append, List.dropWhile_cons, if_pos hc]
      exact ih h
    · rw [List.dropWhile_cons, if_neg hc] at h
      exact absurd h (by simp)

theorem dropWhile_append_of_ne_nil {p : Char → Bool} {l : List Char}
    (h : l.dropWhile p ≠ []) (m : List Char) :
    (l ++ m).dropWhile p = l.dropWhile p ++ m := by
  induction l with
  | nil => simp at h
  | cons c rest ih =>
    by_cases hc : p c = true
    · rw [List.dropWhile_cons, if_pos hc] at h ⊢
      rw [List.cons_append, List.dropWhile_cons, if_pos hc]
      exact ih h
    · rw [List.dropWhile_cons, if_neg hc]
      rw [List.cons_append, List.dropWhile_cons, if_neg hc]

theorem trimChars_cons_ws (c : Char) (l : List Char) (hc : isWS c = true) :
    trimChars (c :: l) = trimChars l := by
  simp [trimChars, List.dropWhile_cons, hc]

theorem trimChars_snoc_ws (c : Char) (l : List Char) (hc : isWS c = true) :
    trimChars (l ++ [c]) = trimChars l := by
  by_cases h : l.dropWhile isWS = []
  · rw [trimChars, dropWhile_append_of_eq_nil h]
    simp [trimChars, h, List.dropWhile_cons, hc]
  · rw [trimChars, dropWhile_append_of_ne_nil h, trimChars]
    rw [List.reverse_append]
    simp only [List.reverse_cons, List.reverse_nil, List.nil_append,
      List.singleton_append, List.dropWhile_cons, hc, if_true]

theorem mem_of_mem_dropWhile {p : Char → Bool} {l : List Char} {a : Char}
    (h : a ∈ l.dropWhile p) : a ∈ l := by
  induction l with
  | nil => simp at h
  | cons c rest ih =>
    by_cases hc : p c = true
    · rw [List.dropWhile_cons, if_pos hc] at h
      exact List.mem_cons_of_mem c (ih h)
    · rw [List.dropWhile_cons, if_neg hc] at h
      exact h

theorem mem_of_mem_trimChars {l : List Char} {a : Char} (h : a ∈ trimChars l) : a ∈ l := by
  rw [trimChars] at h
  rw [List.mem_reverse] at h
  have h2 := mem_of_mem_dropWhile h
  rw [List.mem_reverse] at h2
  exact mem_of_mem_dropWhile h2

theorem getLast?_dropWhile_of_ne_nil {p : Char → Bool} {l : List Char}
    (h : l.dropWhile p ≠ []) : (l.dropWhile p).getLast? = l.getLast? := by
  induction l with
  | nil => simp at h
  | cons c rest ih =>
    by_cases hc : p c = true
    · rw [List.dropWhile_cons, if_pos hc] at h ⊢
      rw [ih h]
      have hr : rest ≠ [] := by
        intro he; rw [he] at h; simp at h
      cases rest with
      | nil => exact absurd rfl hr
      | cons x xs => rw [List.getLast?_cons_cons]
    · rw [List.dropWhile_cons, if_neg hc]

theorem head?_dropWhile_false {p : Char → Bool} {l : List Char} {a : Char}
    (h : (l.dropWhile p).head? = some a) : p a = false := by
  have := List.head?_dropWhile_not p l
  rw [h] at this
  exact this

theorem trimChars_head?_not_ws {l : List Char} {a : Char}
    (h : (trimChars l).head? = some a) : isWS a = false := by
  rw [trimChars, List.head?_reverse] at h
  have hne : (((l.dropWhile isWS).reverse).dropWhile isWS) ≠ [] := by
    intro he; rw [he] at h; simp at h
  rw [getLast?_dropWhile_of_ne_nil hne, List.getLast?_reverse] at h
  exact head?_dropWhile_false h

theorem trimChars_getLast?_not_ws {l : List Char} {a : Char}
    (h : (trimChars l).getLast? = some a) : isWS a = false := by
  rw [trimChars, List.getLast?_reverse] at h
  exact head?_dropWhile_false h

theorem trimChars_eq_self_of_ends {l : List Char}
    (h1 : ∀ a, l.head? = some a → isWS a = false)
    (h2 : ∀ b, l.getLast? = some b → isWS b = false) :
    trimChars l = l := by
  cases l with
  | nil => simp [trimChars]
  | cons x xs =>
    have hx : isWS x = false := h1 x rfl
    rw [trimChars, List.dropWhile_cons, hx]
    simp only [Bool.false_eq_true, if_false]
    cases hr : (x :: xs).reverse with
    | nil => simpa using congrArg List.length hr
    | cons b m =>
      have hb : isWS b = false := by
        apply h2
        rw [← List.head?_reverse, hr]
        rfl
      rw [List.dropWhile_cons, hb]
      simp only [Bool.false_eq_true, if_false]
      rw [← hr, List.reverse_reverse]

theorem trimChars_idem (l : List Char) : trimChars (trimChars l) = trimChars l :=
  trimChars_eq_self_of_ends
    (fun _ ha => trimChars_head?_not_ws ha)
    (fun _ hb => trimChars_getLast?_not_ws hb)

theorem trimChars_sandwich (a b : Char) (l : List Char)
    (ha : isWS a = false) (hb : isWS b = false) :
    trimChars (a :: (l ++ [b])) = a :: (l ++ [b]) := by
  apply trimChars_eq_self_of_ends
  · intro x hx
    rw [List.head?_cons, Option.some_inj] at hx
    exact hx ▸ ha
  · intro y hy
    rw [show a :: (l ++ [b]) = (a :: l) ++ [b] by simp,
      List.getLast?_concat, Option.some_inj] at hy
    exact hy ▸ hb

/-! ### `cellsOf` and the rebuild round-trip -/

theorem cellsOf_ne_nil (l : Line) : cellsOf l ≠ [] := by
  simp only [cellsOf, ne_eq, List.map_eq_nil_iff]
  exact splitOnChar_ne_nil '|' l

theorem cellsOf_cons_space (l : Line) : cellsOf (' ' :: l) = cellsOf l := by
  simp only [cellsOf]
  rw [splitOnChar_cons_of_ne '|' ' ' l (by decide)]
  cases hs : splitOnChar '|' l with
  | nil => exact absurd hs (splitOnChar_ne_nil '|' l)
  | cons h t =>
    simp only [List.map_cons]
    rw [trimChars_cons_ws ' ' h (by decide)]

theorem cellsOf_snoc_space (l : Line) : cellsOf (l ++ [' ']) = cellsOf l := by
  obtain ⟨h, t, h1, h2⟩ := splitOnChar_snoc_of_ne '|' ' ' l (by decide)
  simp only [cellsOf, h1, h2, List.map_append, List.map_cons, List.map_nil]
  rw [trimChars_snoc_ws ' ' t (by decide)]

theorem cellsOf_append_pipe (xs ys : Line) :
    cellsOf (xs ++ '|' :: ys) = cellsOf xs ++ cellsOf ys := by
  simp only [cellsOf, splitOnChar_append_sep, List.map_append]

theorem cellsOf_no_pipe (l : Line) (h : '|' ∉ l) : cellsOf l = [trimChars l] := by
  simp [cellsOf, splitOnChar_of_not_mem '|' l h]

theorem cellsOf_join (cells : List Line) (hne : cells ≠ []) :
    cellsOf (joinWith sepSL cells) = cells.flatMap cellsOf := by
  induction cells with
  | nil => exact absurd rfl hne
  | cons c cs ih =>
    cases cs with
    | nil => simp [joinWith]
    | cons d ds =>
      rw [joinWith_cons_of_ne_nil _ _ _ (by simp)]
      have hsplit : c ++ sepSL ++ joinWith sepSL (d :: ds) =
          (c ++ [' ']) ++ '|' :: (' ' :: joinWith sepSL (d :: ds)) := by
        simp [sepSL]
      rw [hsplit, cellsOf_append_pipe, cellsOf_snoc_space, cellsOf_cons_space,
        ih (by simp)]
      simp [List.flatMap_cons]

theorem rebuildRow_eq (cells : List Line) :
    rebuildRow cells = '|' :: ((' ' :: (joinWith sepSL cells ++ [' '])) ++ ['|']) := by
  simp [rebuildRow]

theorem trimChars_rebuildRow (cells : List Line) :
    trimChars (rebuildRow cells) = rebuildRow cells := by
  rw [rebuildRow_eq]
  exact trimChars_sandwich '|' '|' _ (by decide) (by decide)

theorem stripEdgePipes_pipes (mid : Line) :
    stripEdgePipes ('|' :: (mid ++ ['|'])) = mid := by
  have h1 : ('|' :: (mid ++ ['|'])).head? = some '|' := rfl
  simp only [stripEdgePipes]
  rw [if_pos h1, List.tail_cons, if_pos (List.getLast?_concat mid), List.dropLast_concat]

theorem stripEdgePipes_rebuildRow (cells : List Line) :
    stripEdgePipes (rebuildRow cells) = ' ' :: (joinWith sepSL cells ++ [' ']) := by
  rw [rebuildRow_eq]
  exact stripEdgePipes_pipes _

theorem parseCells_rebuildRow (cells : List Line) (hne : cells ≠ []) :
    parseCells (rebuildRow cells) = cells.flatMap cellsOf := by
  rw [parseCells, trimChars_rebuildRow, stripEdgePipes_rebuildRow,
    cellsOf_cons_space, cellsOf_snoc_space, cellsOf_join cells hne]

theorem cellsOf_mem_props {l c : Line} (hc : c ∈ cellsOf l) :
    '|' ∉ c ∧ trimChars c = c := by
  simp only [cellsOf, List.mem_map] at hc
  obtain ⟨p, hp, rfl⟩ := hc
  exact ⟨fun hm => not_mem_of_mem_splitOnChar '|' l p hp (mem_of_mem_trimChars hm),
    trimChars_idem p⟩

theorem cellsOf_clean {c : Line} (h1 : '|' ∉ c) (h2 : trimChars c = c) :
    cellsOf c = [c] := by
  rw [cellsOf_no_pipe c h1, h2]

theorem flatMap_cellsOf_clean {cells : List Line}
    (h : ∀ c ∈ cells, '|' ∉ c ∧ trimChars c = c) :
    cells.flatMap cellsOf = cells := by
  induction cells with
  | nil => simp
  | cons c cs ih =>
    rw [List.flatMap_cons,
      cellsOf_clean (h c (List.mem_cons_self c cs)).1 (h c (List.mem_cons_self c cs)).2,
      ih (fun d hd => h d (List.mem_cons_of_mem c hd))]
    simp

theorem parseCells_rebuildRow_clean (cells : List Line) (hne : cells ≠ [])
    (h : ∀ c ∈ cells, '|' ∉ c ∧ trimChars c = c) :
    parseCells (rebuildRow cells) = cells := by
  rw [parseCells_rebuildRow cells hne, flatMap_cellsOf_clean h]

theorem cellsOf_join_clean (cells : List Line) (hne : cells ≠ [])
    (h : ∀ c ∈ cells, '|' ∉ c ∧ trimChars c = c) :
    cellsOf (joinWith sepSL cells) = cells := by
  rw [cellsOf_join cells hne, flatMap_cellsOf_clean h]

theorem parseCells_mem_props {row c : Line} (hc : c ∈ parseCells row) :
    '|' ∉ c ∧ trimChars c = c := by
  rw [parseCells] at hc
  exact cellsOf_mem_props hc

theorem parseCells_ne_nil (row : Line) : parseCells row ≠ [] := by
  rw [parseCells]
  exact cellsOf_ne_nil _

theorem rebuildRow_contains_pipe (cells : List Line) :
    (rebuildRow cells).contains '|' = true := by
  simp [rebuildRow, List.contains]

theorem isTableRow_rebuildRow (cells : List Line) :
    isTableRow (rebuildRow cells) = true := by
  simp only [isTableRow, trimChars_rebuildRow]
  rw [Bool.and_eq_true, rebuildRow_contains_pipe]
  refine ⟨rfl, ?_⟩
  rw [decide_eq_true_eq, rebuildRow]
  simp only [List.length_cons, List.length_append]
  omega

theorem rebuildRow_not_isEmpty (cells : List Line) :
    (rebuildRow cells).isEmpty = false := by
  simp [rebuildRow]

/-! ### Behaviour of `normalizeTableRow` on re-parsed output -/

theorem normalizeTableRow_of_contains {row : Line} (C : Nat)
    (hp : row.contains '|' = true) :
    normalizeTableRow row C = rebuildRow (adjustCells (parseCells row) C) := by
  unfold normalizeTableRow
  rw [if_neg (by rw [hp]; simp)]

theorem adjustCells_of_le {cells : List Line} {C : Nat} (h : cells.length ≤ C) :
    adjustCells cells C = cells ++ List.replicate (C - cells.length) [] := by
  rw [adjustCells, if_neg (by omega)]
  by_cases h2 : cells.length < C
  · rw [if_pos h2]
  · rw [if_neg h2]
    have : C - cells.length = 0 := by omega
    simp [this]

theorem adjustCells_of_gt {cells : List Line} {C : Nat} (h : C < cells.length) :
    adjustCells cells C =
      cells.take (C - 1) ++ [joinWith sepSL (cells.drop (C - 1))] := by
  rw [adjustCells, if_pos h]

theorem parseCells_normalizeTableRow (row : Line) (C : Nat)
    (hp : row.contains '|' = true) (hC : 1 ≤ C) :
    parseCells (normalizeTableRow row C) =
      if (parseCells row).length ≤ C then
        parseCells row ++ List.replicate (C - (parseCells row).length) []
      else parseCells row := by
  rw [normalizeTableRow_of_contains C hp]
  by_cases h1 : (parseCells row).length ≤ C
  · rw [if_pos h1, adjustCells_of_le h1]
    apply parseCells_rebuildRow_clean
    · simp [parseCells_ne_nil row]
    · intro c hc
      rcases List.mem_append.mp hc with hc | hc
      · exact parseCells_mem_props hc
      · rw [List.eq_of_mem_replicate hc]
        exact ⟨by simp, by simp [trimChars]⟩
  · rw [if_neg h1, adjustCells_of_gt (by omega)]
    rw [parseCells_rebuildRow _ (by simp)]
    rw [List.flatMap_append]
    have hdrop : (parseCells row).drop (C - 1) ≠ [] := by
      intro he
      have := congrArg List.length he
      simp only [List.length_drop, List.length_nil] at this
      omega
    rw [flatMap_cellsOf_clean
        (fun c hc => parseCells_mem_props (List.take_subset _ _ hc))]
    simp only [List.flatMap_cons, List.flatMap_nil, List.append_nil]
    rw [cellsOf_join_clean _ hdrop
        (fun c hc => parseCells_mem_props (List.drop_subset _ _ hc))]
    exact List.take_append_drop _ _

theorem normalizeTableRow_idem (row : Line) (C : Nat)
    (hp : row.contains '|' = true) (hC : 1 ≤ C) :
    normalizeTableRow (normalizeTableRow row C) C = normalizeTableRow row C := by
  have hp2 : (normalizeTableRow row C).contains '|' = true := by
    rw [normalizeTableRow_of_contains C hp]
    exact rebuildRow_contains_pipe _
  rw [normalizeTableRow_of_contains C hp2, parseCells_normalizeTableRow row C hp hC,
    normalizeTableRow_of_contains C hp]
  by_cases h1 : (parseCells row).length ≤ C
  · rw [if_pos h1, adjustCells_of_le h1]
    have hlen : ((parseCells row) ++
        List.replicate (C - (parseCells row).length) []).length = C := by
      simp only [List.length_append, List.length_replicate]
      omega
    rw [adjustCells_of_le (le_of_eq hlen), hlen]
    simp
  · rw [if_neg h1]

theorem countTableColumns_of_contains {row : Line} (hp : row.contains '|' = true) :
    countTableColumns row =
      ((parseCells row).filter (fun cell => !cell.isEmpty)).length := by
  unfold countTableColumns
  rw [if_neg (by rw [hp]; simp)]

theorem countTableColumns_normalizeTableRow (row : Line) (C : Nat)
    (hp : row.contains '|' = true) (hC : 1 ≤ C) :
    countTableColumns (normalizeTableRow row C) = countTableColumns row := by
  have hp2 : (normalizeTableRow row C).contains '|' = true := by
    rw [normalizeTableRow_of_contains C hp]
    exact rebuildRow_contains_pipe _
  rw [countTableColumns_of_contains hp2, countTableColumns_of_contains hp,
    parseCells_normalizeTableRow row C hp hC]
  by_cases h1 : (parseCells row).length ≤ C
  · rw [if_pos h1, List.filter_append]
    have hrep : (List.replicate (C - (parseCells row).length)
        ([] : Line)).filter (fun cell => !cell.isEmpty) = [] := by
      rw [List.filter_eq_nil_iff]
      intro a ha
      rw [List.eq_of_mem_replicate ha]
      simp
    rw [hrep, List.append_nil]
  · rw [if_neg h1]

/-! ### Separator classification lemmas -/

theorem all_tableSepChar_of_all_ws {l : List Char} (h : l.all isWS = true) :
    l.all tableSepChar = true := by
  rw [List.all_eq_true] at h ⊢
  intro c hc
  simp [tableSepChar, h c hc]

theorem all_of_dropWhile {p q : Char → Bool} (hpq : ∀ c, p c = true → q c = true)
    {l : List Char} (h : (l.dropWhile p).all q = true) : l.all q = true := by
  induction l with
  | nil => simp
  | cons c rest ih =>
    by_cases hc : p c = true
    · rw [List.dropWhile_cons, if_pos hc] at h
      simp only [List.all_cons, Bool.and_eq_true]
      exact ⟨hpq c hc, ih h⟩
    · rw [List.dropWhile_cons, if_neg hc] at h
      exact h

theorem all_of_dropColon {q : Char → Bool} (hq : q ':' = true) {l : List Char}
    (h : (dropColon l).all q = true) : l.all q = true := by
  unfold dropColon at h
  split at h
  next hcond =>
    cases l with
    | nil => simp
    | cons a t =>
      simp only [List.head?_cons, Option.some_inj] at hcond
      subst hcond
      simp only [List.tail_cons] at h
      simp [List.all_cons, hq, h]
  next => exact h

theorem mem_of_mem_dropColon {l : List Char} {a : Char} (h : a ∈ dropColon l) :
    a ∈ l := by
  unfold dropColon at h
  split at h
  next =>
    cases l with
    | nil => simp at h
    | cons b t => exact List.mem_cons_of_mem b h
  next => exact h

theorem parseSeg_sound {cs cs' : List Char} (h : parseSeg cs = some cs') :
    (cs'.all tableSepChar = true → cs.all tableSepChar = true) ∧ '-' ∈ cs := by
  unfold parseSeg at h
  split at h
  next hcond =>
    rw [Option.some_inj] at h
    cases hdc : dropColon (cs.dropWhile isWS) with
    | nil => rw [hdc] at hcond; simp at hcond
    | cons a t =>
      rw [hdc] at hcond h
      rw [List.head?_cons, Option.some_inj] at hcond
      subst hcond
      rw [List.tail_cons] at h
      constructor
      · intro hall
        rw [← h] at hall
        have h3 : t.all tableSepChar = true :=
          all_of_dropWhile
            (fun c hc => by
              simp only [beq_iff_eq] at hc
              simp [tableSepChar, hc])
            (all_of_dropColon (by simp [tableSepChar])
              (all_of_dropWhile (fun c hc => by simp [tableSepChar, hc]) hall))
        have hdcall : (dropColon (cs.dropWhile isWS)).all tableSepChar = true := by
          rw [hdc]
          simp [List.all_cons, tableSepChar, h3]
        exact all_of_dropWhile (fun c hc => by simp [tableSepChar, hc])
          (all_of_dropColon (by simp [tableSepChar]) hdcall)
      · have hmem : '-' ∈ dropColon (cs.dropWhile isWS) := by
          rw [hdc]; exact List.mem_cons_self '-' t
        exact mem_of_mem_dropWhile (mem_of_mem_dropColon hmem)
  next => simp at h

theorem sepLoopF_sound : ∀ fuel cs, sepLoopF fuel cs = true →
    cs.all tableSepChar = true := by
  intro fuel
  induction fuel with
  | zero =>
    intro cs h
    cases cs with
    | nil => simp
    | cons c rest =>
      have h' : (c :: rest).all isWS = true := h
      exact all_tableSepChar_of_all_ws h'
  | succ fuel ih =>
    intro cs h
    cases cs with
    | nil => simp
    | cons c rest =>
      rw [sepLoopF] at h
      split at h
      next hc =>
        subst hc
        split at h
        next rest2 hm =>
          have hrest : rest.all tableSepChar = true :=
            (parseSeg_sound hm).1 (ih rest2 h)
          simp [List.all_cons, tableSepChar, hrest]
        next =>
          have := all_tableSepChar_of_all_ws h
          simp [List.all_cons, tableSepChar, this]
      next => exact all_tableSepChar_of_all_ws h

theorem isTableSeparator_sound {line : Line} (h : isTableSeparator line = true) :
    (trimChars line).all tableSepChar = true ∧ '-' ∈ trimChars line := by
  have h' : sepRegexAccepts (trimChars line) = true := h
  cases ht : trimChars line with
  | nil => rw [ht] at h'; simp [sepRegexAccepts] at h'
  | cons c rest =>
    rw [ht] at h'
    rw [sepRegexAccepts] at h'
    split at h'
    next hc =>
      subst hc
      split at h'
      next rest2 hm =>
        have hrest2 : rest2.all tableSepChar = true :=
          sepLoopF_sound rest2.length rest2 h'
        have hrest : rest.all tableSepChar = true := (parseSeg_sound hm).1 hrest2
        refine ⟨?_, List.mem_cons_of_mem '|' (parseSeg_sound hm).2⟩
        simp [List.all_cons, tableSepChar, hrest]
      next => simp at h'
    next => simp at h'

/-! ### The generated separator row is accepted by the separator regex -/

theorem length_joinWith_replicate (k : Nat) :
    (joinWith sepSL (List.replicate (k + 1) ['-', '-', '-'])).length = 6 * k + 3 := by
  induction k with
  | zero => rfl
  | succ k ih =>
    rw [List.replicate_succ,
      joinWith_cons_of_ne_nil _ _ _ (by simp [List.replicate_succ])]
    rw [List.length_append, List.length_append, ih]
    simp only [sepSL, List.length_cons, List.length_nil]
    omega

theorem length_createTableSeparator (k : Nat) :
    (createTableSeparator (k + 1)).length = 6 * k + 7 := by
  simp only [createTableSeparator, rebuildRow, List.length_cons, List.length_nil,
    List.length_append, length_joinWith_replicate]

theorem parseSeg_ctsBody_zero :
    parseSeg (' ' :: (joinWith sepSL (List.replicate 1 ['-', '-', '-']) ++ [' ', '|'])) =
      some ['|'] := by
  rfl

theorem parseSeg_ctsBody_succ (k : Nat) :
    parseSeg (' ' :: (joinWith sepSL (List.replicate (k + 2) ['-', '-', '-']) ++ [' ', '|'])) =
      some (createTableSeparator (k + 1)) := by
  set J := joinWith sepSL (List.replicate (k + 1) ['-', '-', '-']) with hJ
  have hrw : ' ' :: (joinWith sepSL (List.replicate (k + 2) ['-', '-', '-']) ++ [' ', '|']) =
      ' ' :: '-' :: '-' :: '-' :: ' ' :: '|' :: ' ' :: (J ++ [' ', '|']) := by
    rw [List.replicate_succ,
      joinWith_cons_of_ne_nil _ _ _ (by simp [List.replicate_succ]), ← hJ]
    simp [sepSL]
  rw [hrw]
  have hdw1 : List.dropWhile isWS
      (' ' :: '-' :: '-' :: '-' :: ' ' :: '|' :: ' ' :: (J ++ [' ', '|'])) =
      '-' :: '-' :: '-' :: ' ' :: '|' :: ' ' :: (J ++ [' ', '|']) := by
    rw [List.dropWhile_cons, if_pos (show isWS ' ' = true from rfl),
      List.dropWhile_cons, if_neg (show ¬isWS '-' = true by decide)]
  have hdc1 : dropColon ('-' :: '-' :: '-' :: ' ' :: '|' :: ' ' :: (J ++ [' ', '|'])) =
      '-' :: '-' :: '-' :: ' ' :: '|' :: ' ' :: (J ++ [' ', '|']) := by
    rw [dropColon, if_neg]
    intro hcol
    rw [List.head?_cons, Option.some_inj] at hcol
    exact absurd hcol (by decide)
  unfold parseSeg
  rw [hdw1, hdc1]
  rw [if_pos (show (('-' : Char) :: '-' :: '-' :: ' ' :: '|' :: ' ' ::
    (J ++ [' ', '|'])).head? = some '-' from rfl)]
  rw [List.tail_cons]
  have hdw2 : List.dropWhile (fun x => x == '-')
      ('-' :: '-' :: ' ' :: '|' :: ' ' :: (J ++ [' ', '|'])) =
      ' ' :: '|' :: ' ' :: (J ++ [' ', '|']) := by
    rw [List.dropWhile_cons, if_pos (by decide), List.dropWhile_cons, if_pos (by decide),
      List.dropWhile_cons, if_neg (by decide)]
  rw [hdw2]
  have hdc2 : dropColon (' ' :: '|' :: ' ' :: (J ++ [' ', '|'])) =
      ' ' :: '|' :: ' ' :: (J ++ [' ', '|']) := by
    rw [dropColon, if_neg]
    intro hcol
    rw [List.head?_cons, Option.some_inj] at hcol
    exact absurd hcol (by decide)
  rw [hdc2]
  have hdw3 : List.dropWhile isWS (' ' :: '|' :: ' ' :: (J ++ [' ', '|'])) =
      '|' :: ' ' :: (J ++ [' ', '|']) := by
    rw [List.dropWhile_cons, if_pos (show isWS ' ' = true from rfl),
      List.dropWhile_cons, if_neg (show ¬isWS '|' = true by decide)]
  rw [hdw3, createTableSeparator, rebuildRow, ← hJ]

theorem sepLoopF_createTableSeparator :
    ∀ k fuel, k + 2 ≤ fuel → sepLoopF fuel (createTableSeparator (k + 1)) = true := by
  intro k
  induction k with
  | zero =>
    intro fuel hf
    match fuel, hf with
    | f + 1, _ =>
      show sepLoopF (f + 1) ('|' :: (' ' ::
        (joinWith sepSL (List.replicate 1 ['-', '-', '-']) ++ [' ', '|']))) = true
      rw [sepLoopF, if_pos rfl, parseSeg_ctsBody_zero]
      match f, (by omega : 1 ≤ f) with
      | g + 1, _ => rfl
  | succ k ih =>
    intro fuel hf
    match fuel, hf with
    | f + 1, _ =>
      show sepLoopF (f + 1) ('|' :: (' ' ::
        (joinWith sepSL (List.replicate (k + 2) ['-', '-', '-']) ++ [' ', '|']))) = true
      rw [sepLoopF, if_pos rfl, parseSeg_ctsBody_succ k]
      exact ih f (by omega)

theorem isTableSeparator_createTableSeparator (C : Nat) (hC : 1 ≤ C) :
    isTableSeparator (createTableSeparator C) = true := by
  obtain ⟨k, rfl⟩ : ∃ k, C = k + 1 := ⟨C - 1, by omega⟩
  have htrim : trimChars (createTableSeparator (k + 1)) = createTableSeparator (k + 1) := by
    rw [createTableSeparator]
    exact trimChars_rebuildRow _
  show sepRegexAccepts (trimChars (createTableSeparator (k + 1))) = true
  rw [htrim]
  show sepRegexAccepts ('|' :: (' ' ::
    (joinWith sepSL (List.replicate (k + 1) ['-', '-', '-']) ++ [' ', '|']))) = true
  rw [sepRegexAccepts, if_pos rfl]
  cases k with
  | zero =>
    rw [parseSeg_ctsBody_zero]
    rfl
  | succ k =>
    rw [parseSeg_ctsBody_succ k]
    show sepLoop (createTableSeparator (k + 1)) = true
    rw [sepLoop]
    apply sepLoopF_createTableSeparator
    rw [length_createTableSeparator]
    omega

/-! ### Structure of a successful `normalizeTableRows` run -/

theorem normalizeTableRows_eq_some {tableLines rows : List Line}
    (h : normalizeTableRows tableLines = some rows) :
    ∃ headerRow restRows,
      dataRowsOf tableLines = headerRow :: restRows ∧
      countTableColumns headerRow ≠ 0 ∧
      rows = normalizeTableRow headerRow (countTableColumns headerRow) ::
        createTableSeparator (countTableColumns headerRow) ::
        restRows.map (fun r => normalizeTableRow r (countTableColumns headerRow)) := by
  unfold normalizeTableRows at h
  split at h
  next => simp at h
  next headerRow restRows heq =>
    split at h
    next => simp at h
    next hC0 =>
      rw [Option.some_inj] at h
      exact ⟨headerRow, restRows, heq, hC0, h.symm⟩

theorem dataRowsOf_mem_props {tableLines : List Line} {r : Line}
    (hr : r ∈ dataRowsOf tableLines) :
    trimChars r = r ∧ isTableRow r = true ∧ r.contains '|' = true := by
  rw [dataRowsOf, List.mem_filter] at hr
  obtain ⟨hr1, _⟩ := hr
  rw [List.mem_filter] at hr1
  obtain ⟨hr2, hp⟩ := hr1
  rw [Bool.and_eq_true] at hp
  obtain ⟨_, hrow⟩ := hp
  rw [List.mem_map] at hr2
  obtain ⟨orig, _, rfl⟩ := hr2
  refine ⟨trimChars_idem orig, hrow, ?_⟩
  simp only [isTableRow, trimChars_idem] at hrow
  rw [Bool.and_eq_true] at hrow
  exact hrow.1

/-! ## Claim theorems -/

/-- C2: when a data row has more parsed cells than the header's column count
`targetColumns ≥ 1`, `normalizeTableRow` merges cells `targetColumns - 1`
through `n - 1` into a single last cell joined with `" | "`, and no cell
content is dropped: the joined cell text of the adjusted row equals the
joined cell text of the original row.  (The concrete instance — header count
2, row `"| 1 | 2 | 3 |"` re-emitted unchanged with cells
`["1", "2 | 3"]` — is checked in the witness.) -/
theorem claim2_merge_preserves :
    ∀ (row : Line) (targetColumns : Nat),
      row.contains '|' = true → 1 ≤ targetColumns →
      targetColumns < (parseCells row).length →
      normalizeTableRow row targetColumns =
        rebuildRow ((parseCells row).take (targetColumns - 1) ++
          [joinWith sepSL ((parseCells row).drop (targetColumns - 1))]) ∧
      joinWith sepSL (adjustCells (parseCells row) targetColumns) =
        joinWith sepSL (parseCells row) := by
  intro row C hp hC hlt
  constructor
  · rw [normalizeTableRow_of_contains C hp, adjustCells_of_gt hlt]
  · rw [adjustCells_of_gt hlt]
    have hdrop : (parseCells row).drop (C - 1) ≠ [] := by
      intro he
      have := congrArg List.length he
      simp only [List.length_drop, List.length_nil] at this
      omega
    rw [joinWith_append_join _ _ _ hdrop, List.take_append_drop]

/-- Witness for C2 at the spec's concrete example. -/
theorem claim2_witness :
    normalizeTableRow (toL "| 1 | 2 | 3 |") 2 = toL "| 1 | 2 | 3 |" ∧
    adjustCells (parseCells (toL "| 1 | 2 | 3 |")) 2 = [toL "1", toL "2 | 3"] ∧
    (normalizeTableRow (toL "| 1 | 2 | 3 |") 2 =
      rebuildRow ((parseCells (toL "| 1 | 2 | 3 |")).take (2 - 1) ++
        [joinWith sepSL ((parseCells (toL "| 1 | 2 | 3 |")).drop (2 - 1))]) ∧
     joinWith sepSL (adjustCells (parseCells (toL "| 1 | 2 | 3 |")) 2) =
      joinWith sepSL (parseCells (toL "| 1 | 2 | 3 |"))) :=
  ⟨by decide, by decide,
    claim2_merge_preserves (toL "| 1 | 2 | 3 |") 2 (by decide) (by decide) (by decide)⟩

/-- C6: when a data row has fewer parsed cells than `targetColumns`,
`normalizeTableRow` right-pads with empty cells up to `targetColumns`, and
re-parsing the emitted row yields exactly the padded cell list.  (The
concrete instance — header `"| A | B | C |"` giving count 3 and row
`"| x | y |"` emitted as `"| x | y |  |"` — is checked in the witness.) -/
theorem claim6_pad :
    ∀ (row : Line) (targetColumns : Nat),
      row.contains '|' = true → (parseCells row).length < targetColumns →
      normalizeTableRow row targetColumns =
        rebuildRow (parseCells row ++
          List.replicate (targetColumns - (parseCells row).length) []) ∧
      parseCells (normalizeTableRow row targetColumns) =
        parseCells row ++
          List.replicate (targetColumns - (parseCells row).length) [] := by
  intro row C hp hlt
  have hC : 1 ≤ C := by
    have := List.length_pos.mpr (parseCells_ne_nil row)
    omega
  constructor
  · rw [normalizeTableRow_of_contains C hp, adjustCells_of_le (le_of_lt hlt)]
  · rw [parseCells_normalizeTableRow row C hp hC, if_pos (le_of_lt hlt)]

/-- Witness for C6 at the spec's concrete example. -/
theorem claim6_witness :
    countTableColumns (toL "| A | B | C |") = 3 ∧
    normalizeTableRow (toL "| x | y |") 3 = toL "| x | y |  |" ∧
    parseCells (normalizeTableRow (toL "| x | y |") 3) =
      parseCells (toL "| x | y |") ++
        List.replicate (3 - (parseCells (toL "| x | y |")).length) [] :=
  ⟨by decide, by decide, (claim6_pad (toL "| x | y |") 3 (by decide) (by decide)).2⟩

/-- C10: a row containing a pipe is rebuilt fully pipe-framed — the emitted
string starts with `"| "` and ends with `" |"` — for any
`targetColumns ≥ 1`, while a row without a pipe is returned completely
unchanged. -/
theorem claim10_framed :
    ∀ (row : Line) (targetColumns : Nat),
      (row.contains '|' = false → normalizeTableRow row targetColumns = row) ∧
      (row.contains '|' = true → 1 ≤ targetColumns →
        (normalizeTableRow row targetColumns).take 2 = ['|', ' '] ∧
        ((normalizeTableRow row targetColumns).reverse).take 2 = ['|', ' ']) := by
  intro row t
  constructor
  · intro hnp
    rw [normalizeTableRow, if_pos hnp]
  · intro hp _
    rw [normalizeTableRow_of_contains t hp]
    constructor
    · rfl
    · rw [rebuildRow]
      have hrev : ('|' :: ' ' ::
          (joinWith sepSL (adjustCells (parseCells row) t) ++ [' ', '|'])).reverse =
          '|' :: ' ' ::
            ((joinWith sepSL (adjustCells (parseCells row) t)).reverse ++ [' ', '|']) := by
        simp
      rw [hrev]
      rfl

/-- Witness for C10. -/
theorem claim10_witness :
    normalizeTableRow (toL "abc") 5 = toL "abc" ∧
    (normalizeTableRow (toL "| x |") 1).take 2 = ['|', ' '] ∧
    ((normalizeTableRow (toL "| x |") 1).reverse).take 2 = ['|', ' '] :=
  ⟨(claim10_framed (toL "abc") 5).1 (by decide),
    ((claim10_framed (toL "| x |") 1).2 (by decide) (by decide)).1,
    ((claim10_framed (toL "| x |") 1).2 (by decide) (by decide)).2⟩

/-- C3 counterexample: in the block `["| A | B |", "| 1 | 2 | 3 |"]` the
header count is `C = 2`, yet the emitted data row `"| 1 | 2 | 3 |"` parses
back (strip one leading and one trailing pipe, split on `"|"`) to 3 cells,
not 2 — the merged cell contains `" | "`, so the row-count invariant fails
as stated. -/
theorem claim3_counterexample :
    normalizeTableRows [toL "| A | B |", toL "| 1 | 2 | 3 |"] =
      some [toL "| A | B |", toL "| --- | --- |", toL "| 1 | 2 | 3 |"] ∧
    countTableColumns (toL "| A | B |") = 2 ∧
    (parseCells (toL "| 1 | 2 | 3 |")).length = 3 := by
  decide

/-- C3 amended: the generated separator always parses back to exactly `C`
cells, and an emitted data row parses back to exactly `C` cells when its
source row had at most `C` parsed cells; a source row with `n > C` parsed
cells parses back to exactly its original `n` cells (merging preserves the
pipe-delimited content instead of reducing the parsed count to `C`). -/
theorem claim3_amended :
    (∀ C : Nat, 1 ≤ C → (parseCells (createTableSeparator C)).length = C) ∧
    (∀ (row : Line) (C : Nat), row.contains '|' = true → 1 ≤ C →
      ((parseCells row).length ≤ C →
        (parseCells (normalizeTableRow row C)).length = C) ∧
      (C < (parseCells row).length →
        (parseCells (normalizeTableRow row C)).length = (parseCells row).length)) := by
  constructor
  · intro C hC
    rw [createTableSeparator,
      parseCells_rebuildRow_clean _ (by simp; omega)
        (fun c hc => by rw [List.eq_of_mem_replicate hc]; exact ⟨by decide, by decide⟩)]
    exact List.length_replicate C _
  · intro row C hp hC
    constructor
    · intro hle
      rw [parseCells_normalizeTableRow row C hp hC, if_pos hle]
      simp only [List.length_append, List.length_replicate]
      omega
    · intro hgt
      rw [parseCells_normalizeTableRow row C hp hC, if_neg (by omega)]

/-- Witness for the amended C3. -/
theorem claim3_witness :
    (parseCells (createTableSeparator 2)).length = 2 ∧
    (parseCells (normalizeTableRow (toL "| x | y |") 3)).length = 3 ∧
    (parseCells (normalizeTableRow (toL "| 1 | 2 | 3 |") 2)).length =
      (parseCells (toL "| 1 | 2 | 3 |")).length :=
  ⟨claim3_amended.1 2 (by decide),
    (claim3_amended.2 (toL "| x | y |") 3 (by decide) (by decide)).1 (by decide),
    (claim3_amended.2 (toL "| 1 | 2 | 3 |") 2 (by decide) (by decide)).2 (by decide)⟩

/-- C1 counterexample: `parseAndFixTable` (generation 1) emits the block for
`"| A | B |\n| 1 | 2 |"` with NO separator row at all — its `splice(1, 1)`
removes the separator it just inserted, and neither emitted row is a
separator; and `normalizeTable` (generation 2) emits for
`["|a|", "- |"]` a block whose second AND third rows are both classified as
separator rows by its own `isTableSeparator` — so "exactly one separator
row" fails for both normalizers. -/
theorem claim1_counterexample :
    parseAndFixTable (toL "| A | B |\n| 1 | 2 |") =
      [toL "| A | B |", toL "| 1 | 2 |"] ∧
    isSeparatorRow (toL "| A | B |") = false ∧
    isSeparatorRow (toL "| 1 | 2 |") = false ∧
    normalizeTableRows [toL "|a|", toL "- |"] =
      some [toL "| a |", toL "| --- |", toL "| - |"] ∧
    isTableSeparator (toL "| --- |") = true ∧
    isTableSeparator (toL "| - |") = true := by
  decide

/-- C1 amended: every block emitted by `normalizeTable` carries the canonical
separator `"| --- | ... | --- |"` (with the header's column count `C ≥ 1`)
as its second row, immediately after the rebuilt header; input separator
rows are all removed first.  "Exactly one" cannot be promised: a rebuilt
data row may itself match the separator pattern (see the counterexample),
and `parseAndFixTable` emits no separator at all. -/
theorem claim1_amended :
    ∀ (tableLines rows : List Line),
      normalizeTableRows tableLines = some rows →
      ∃ hdr C, 1 ≤ C ∧ countTableColumns hdr = C ∧
        rows.head? = some (normalizeTableRow hdr C) ∧
        rows.tail.head? = some (createTableSeparator C) := by
  intro tl rows h
  obtain ⟨hdr, rs, _, hC0, hrows⟩ := normalizeTableRows_eq_some h
  exact ⟨hdr, countTableColumns hdr, by omega, rfl, by rw [hrows]; rfl,
    by rw [hrows]; rfl⟩

/-- Witness for the amended C1. -/
theorem claim1_witness :
    ∃ hdr C, 1 ≤ C ∧ countTableColumns hdr = C ∧
      ([toL "| A | B |", toL "| --- | --- |"] : List Line).head? =
        some (normalizeTableRow hdr C) ∧
      ([toL "| A | B |", toL "| --- | --- |"] : List Line).tail.head? =
        some (createTableSeparator C) :=
  claim1_amended [toL "| A | B |"] [toL "| A | B |", toL "| --- | --- |"] (by decide)

/-- C8 counterexample: `"| - - |"` consists only of pipes, hyphens and
whitespace and contains hyphens, yet `isTableSeparator` (the live
normalizer's classifier) rejects it — the regex requires each hyphen run to
sit alone between pipes — so it is treated as a data row; and the earlier
`isSeparatorRow` accepts the hyphen-free `"|||"`, contradicting the "at
least one run of hyphens" requirement.  Both directions of the claimed
equivalence fail. -/
theorem claim8_counterexample :
    isTableSeparator (toL "| - - |") = false ∧
    (trimChars (toL "| - - |")).all tableSepChar = true ∧
    (trimChars (toL "| - - |")).contains '-' = true ∧
    (toL "| - - |").contains '|' = true ∧
    isSeparatorRow (toL "|||") = true ∧
    (toL "|||").contains '-' = false := by
  decide

/-- C8 amended: one direction of each classifier survives.  Whatever
`isTableSeparator` accepts does consist only of pipe/hyphen/colon/whitespace
characters and does contain a hyphen (but not conversely); and any line
whose trimmed form is non-empty and consists only of those characters is
accepted by the generation-1 `isSeparatorRow`, even with no hyphen at all. -/
theorem claim8_amended :
    (∀ line : Line, isTableSeparator line = true →
      (trimChars line).all tableSepChar = true ∧ '-' ∈ trimChars line) ∧
    (∀ line : Line, (trimChars line).isEmpty = false →
      (trimChars line).all tableSepChar = true → isSeparatorRow line = true) := by
  constructor
  · intro line h
    exact isTableSeparator_sound h
  · intro line h1 h2
    simp [isSeparatorRow, h1, h2]

/-- Witness for the amended C8. -/
theorem claim8_witness :
    ((trimChars (toL "| --- |")).all tableSepChar = true ∧
      '-' ∈ trimChars (toL "| --- |")) ∧
    isSeparatorRow (toL "|||") = true :=
  ⟨claim8_amended.1 (toL "| --- |") (by decide),
    claim8_amended.2 (toL "|||") (by decide) (by decide)⟩

/-- C5 counterexample: the chunk sequencer does NOT use "contains a pipe" as
region delimiter.  The open region `["| a |", "| b |"]` is closed at the
line `"x|"` although that line contains a pipe (its trimmed length 2 fails
`isTableRow`), so `"x|"` lands in a text chunk; and `"| a |"` is treated as
prose although the pipe line `"| b |"` is within the 4-line lookahead,
because the non-empty non-table line `"word"` cancels the lookahead first. -/
theorem claim5_counterexample :
    createStreamableChunks (toL "| a |\n| b |\nx|\nword") =
      [Chunk.table (toL "| a |\n| --- |\n| b |"), Chunk.text (toL "x|\nword")] ∧
    (toL "x|").contains '|' = true ∧
    createStreamableChunks (toL "| a |\nword\n| b |") =
      [Chunk.text (toL "| a |\nword\n| b |")] := by
  decide

/-- C5 amended: a table region starts at a line whose TRIMMED form passes
`isTableRow` (contains a pipe AND has length > 2) and only when the 4-line
lookahead finds another table row before any non-empty non-table line
(otherwise the line is appended to the prose buffer); an open region ends at
the first line whose trimmed form fails `isTableRow` — which includes short
pipe-containing lines — or at end of input. -/
theorem claim5_amended :
    ∀ (st : CSState) (line : Line) (rest : List Line),
      (st.inTable = false → isTableRow (trimChars line) = true →
        lookahead rest 4 = true →
        (chunkStep st line rest).inTable = true ∧
        (chunkStep st line rest).currentTableLines = [line]) ∧
      (st.inTable = false → isTableRow (trimChars line) = true →
        lookahead rest 4 = false →
        chunkStep st line rest =
          { st with currentTextChunk := appendText st.currentTextChunk line }) ∧
      (st.inTable = true → isTableRow (trimChars line) = false →
        (chunkStep st line rest).inTable = false ∧
        (chunkStep st line rest).currentTableLines = []) := by
  intro st line rest
  refine ⟨?_, ?_, ?_⟩
  · intro hst hrow hla
    simp [chunkStep, hst, hrow, hla]
  · intro hst hrow hla
    simp [chunkStep, hst, hrow, hla]
  · intro hst hrow
    simp [chunkStep, hst, hrow]

/-- Witness for the amended C5. -/
theorem claim5_witness :
    (chunkStep ⟨[], [], false, []⟩ (toL "| a |") [toL "| b |"]).inTable = true ∧
    (chunkStep ⟨[], [], false, []⟩ (toL "| a |") [toL "| b |"]).currentTableLines =
      [toL "| a |"] ∧
    (chunkStep ⟨[], [], true, [toL "| a |"]⟩ (toL "end") []).inTable = false :=
  ⟨((claim5_amended ⟨[], [], false, []⟩ (toL "| a |") [toL "| b |"]).1
      rfl (by decide) (by decide)).1,
    ((claim5_amended ⟨[], [], false, []⟩ (toL "| a |") [toL "| b |"]).1
      rfl (by decide) (by decide)).2,
    ((claim5_amended ⟨[], [], true, [toL "| a |"]⟩ (toL "end") []).2.2
      rfl (by decide)).1⟩

/-- C4 counterexample: the block `["| |", "| : |"]` is collected as a table
(the lookahead confirms it), its normalization is discarded (the header
`"| |"` has zero non-empty cells), and the sequencer then emits NOTHING for
those lines — they do not reappear as prose; only the terminating line
`"end"` survives. -/
theorem claim4_counterexample :
    createStreamableChunks (toL "| |\n| : |\nend") = [Chunk.text (toL "end")] := by
  decide

/-- C4 amended: the single input line `"| |"` does yield one prose text
chunk containing that line — but via lookahead rejection (it is never
collected as a table block); when a COLLECTED block's normalization is
discarded (empty result), the table-end step emits no chunk at all for it
(the collected lines are silently dropped), and no error is raised. -/
theorem claim4_amended :
    createStreamableChunks (toL "| |") = [Chunk.text (toL "| |")] ∧
    (∀ (st : CSState) (line : Line) (rest : List Line),
      st.inTable = true → isTableRow (trimChars line) = false →
      trimChars (normalizeTable st.currentTableLines) = [] →
      (chunkStep st line rest).chunks = st.chunks ∧
      (chunkStep st line rest).inTable = false) := by
  constructor
  · decide
  · intro st line rest hst hrow hnt
    simp [chunkStep, hst, hrow, hnt]

/-- Witness for the amended C4. -/
theorem claim4_witness :
    (chunkStep ⟨[], [], true, [toL "| |", toL "| : |"]⟩ (toL "end") []).chunks = [] ∧
    (chunkStep ⟨[], [], true, [toL "| |", toL "| : |"]⟩ (toL "end") []).inTable = false :=
  claim4_amended.2 ⟨[], [], true, [toL "| |", toL "| : |"]⟩ (toL "end") []
    rfl (by decide) (by decide)

/-- C9 counterexample: input that ends inside an open table region whose
block is then discarded (header `"| |"` has zero non-empty cells) produces
NO chunk at all — the collected table lines are not emitted in any form at
end of input. -/
theorem claim9_counterexample :
    createStreamableChunks (toL "| |\n| : |") = ([] : List Chunk) := by
  decide

/-- C9 amended: at end of input an open table collection is normalized and
emitted as a single table chunk PROVIDED the normalization is non-empty
(a discarded block contributes nothing), and any trailing prose buffer is
emitted as a final trimmed text chunk; no error is raised either way. -/
theorem claim9_amended :
    ∀ st : CSState, st.inTable = true → st.currentTableLines.isEmpty = false →
      ((trimChars (normalizeTable st.currentTableLines)).isEmpty = false →
        finalizeChunks st =
          (st.chunks ++ [Chunk.table (normalizeTable st.currentTableLines)]) ++
            (if !(trimChars st.currentTextChunk).isEmpty then
              [Chunk.text (trimChars st.currentTextChunk)] else [])) ∧
      ((trimChars (normalizeTable st.currentTableLines)).isEmpty = true →
        finalizeChunks st = st.chunks ++
          (if !(trimChars st.currentTextChunk).isEmpty then
            [Chunk.text (trimChars st.currentTextChunk)] else [])) := by
  intro st hst hlines
  constructor
  · intro hnt
    cases htext : (trimChars st.currentTextChunk).isEmpty <;>
      simp [finalizeChunks, flushTable, hst, hlines, hnt, htext]
  · intro hnt
    cases htext : (trimChars st.currentTextChunk).isEmpty <;>
      simp [finalizeChunks, flushTable, hst, hlines, hnt, htext]

/-- Witness for the amended C9. -/
theorem claim9_witness :
    finalizeChunks ⟨[], [], true, [toL "| A | B |", toL "| 1 | 2 |"]⟩ =
      (([] : List Chunk) ++
        [Chunk.table (normalizeTable [toL "| A | B |", toL "| 1 | 2 |"])]) ++
        (if !(trimChars ([] : Line)).isEmpty then
          [Chunk.text (trimChars ([] : Line))] else []) :=
  (claim9_amended ⟨[], [], true, [toL "| A | B |", toL "| 1 | 2 |"]⟩
    rfl (by decide)).1 (by decide)

/-- Reduction of `normalizeTableRows` once the data rows are known. -/
theorem normalizeTableRows_cons_eq (headerRow : Line) (restRows : List Line)
    {tableLines : List Line} (hd : dataRowsOf tableLines = headerRow :: restRows) :
    normalizeTableRows tableLines =
      if countTableColumns headerRow = 0 then none
      else
        some (normalizeTableRow headerRow (countTableColumns headerRow) ::
          createTableSeparator (countTableColumns headerRow) ::
          restRows.map (fun r => normalizeTableRow r (countTableColumns headerRow))) := by
  unfold normalizeTableRows
  rw [hd]

/-- C7 counterexample: normalization is not idempotent.  The block
`["|a|", "- |"]` normalizes to `["| a |", "| --- |", "| - |"]`, but running
the normalizer on that output drops the row `"| - |"` (the second run
classifies it as a separator row) and yields the different block
`["| a |", "| --- |"]`. -/
theorem claim7_counterexample :
    normalizeTableRows [toL "|a|", toL "- |"] =
      some [toL "| a |", toL "| --- |", toL "| - |"] ∧
    normalizeTableRows [toL "| a |", toL "| --- |", toL "| - |"] =
      some [toL "| a |", toL "| --- |"] ∧
    ([toL "| a |", toL "| --- |"] : List Line) ≠
      [toL "| a |", toL "| --- |", toL "| - |"] := by
  decide

/-- C7 amended: normalizing an already-normalized block yields the same
block PROVIDED no emitted row other than the inserted separator is itself
classified as a separator row (a rebuilt header or data row whose only cell
content is a hyphen run, such as `"| - |"`, breaks this: the second run
removes it).  Under that proviso the second run reproduces the block
exactly: the rebuilt rows are trim-stable, pass the table-row filter, the
inserted separator is removed again, the header re-parses to the same
column count, and row normalization is idempotent at that count. -/
theorem claim7_amended :
    ∀ (tableLines : List Line) (h s : Line) (rest : List Line),
      normalizeTableRows tableLines = some (h :: s :: rest) →
      isTableSeparator h = false →
      (∀ r ∈ rest, isTableSeparator r = false) →
      normalizeTableRows (h :: s :: rest) = some (h :: s :: rest) := by
  intro tl h s rest hnorm hh hrest
  obtain ⟨hdr, rs, hfil, hC0, hrows⟩ := normalizeTableRows_eq_some hnorm
  rw [List.cons.injEq, List.cons.injEq] at hrows
  obtain ⟨hH, hS, hR⟩ := hrows
  have hC : 1 ≤ countTableColumns hdr := by omega
  have hdrmem : hdr ∈ dataRowsOf tl := by
    rw [hfil]; exact List.mem_cons_self _ _
  obtain ⟨hdrtrim, hdrrow, hdrpipe⟩ := dataRowsOf_mem_props hdrmem
  have hrsprops : ∀ r ∈ rs, r.contains '|' = true := by
    intro r hr
    have hmem : r ∈ dataRowsOf tl := by
      rw [hfil]; exact List.mem_cons_of_mem _ hr
    exact (dataRowsOf_mem_props hmem).2.2
  have htrim_h : trimChars h = h := by
    rw [hH, normalizeTableRow_of_contains _ hdrpipe]
    exact trimChars_rebuildRow _
  have htrim_s : trimChars s = s := by
    rw [hS, createTableSeparator]
    exact trimChars_rebuildRow _
  have htrim_rest : rest.map trimChars = rest := by
    rw [hR, List.map_map]
    apply List.map_congr_left
    intro r hr
    simp only [Function.comp_apply]
    rw [normalizeTableRow_of_contains _ (hrsprops r hr)]
    exact trimChars_rebuildRow _
  have hvalid_h : (!h.isEmpty && isTableRow h) = true := by
    rw [hH, normalizeTableRow_of_contains _ hdrpipe]
    simp [rebuildRow_not_isEmpty, isTableRow_rebuildRow]
  have hvalid_s : (!s.isEmpty && isTableRow s) = true := by
    rw [hS, createTableSeparator]
    simp [rebuildRow_not_isEmpty, isTableRow_rebuildRow]
  have hvalid_rest : ∀ r ∈ rest, (!r.isEmpty && isTableRow r) = true := by
    intro r hr
    rw [hR] at hr
    obtain ⟨r0, hr0, rfl⟩ := List.mem_map.mp hr
    rw [normalizeTableRow_of_contains _ (hrsprops r0 hr0)]
    simp [rebuildRow_not_isEmpty, isTableRow_rebuildRow]
  have hsep_s : isTableSeparator s = true := by
    rw [hS]
    exact isTableSeparator_createTableSeparator _ hC
  have hmap : (h :: s :: rest).map trimChars = h :: s :: rest := by
    simp only [List.map_cons, htrim_h, htrim_s, htrim_rest]
  have hfilter1 : (h :: s :: rest).filter (fun l => !l.isEmpty && isTableRow l) =
      h :: s :: rest := by
    apply List.filter_eq_self.mpr
    intro a ha
    rcases List.mem_cons.mp ha with rfl | ha
    · exact hvalid_h
    · rcases List.mem_cons.mp ha with rfl | ha
      · exact hvalid_s
      · exact hvalid_rest a ha
  have hfilter2 : (h :: s :: rest).filter (fun r => !isTableSeparator r) =
      h :: rest := by
    have hrest' : rest.filter (fun r => !isTableSeparator r) = rest :=
      List.filter_eq_self.mpr (fun a ha => by simp [hrest a ha])
    simp [List.filter_cons, hh, hsep_s, hrest']
  have hdata2 : dataRowsOf (h :: s :: rest) = h :: rest := by
    rw [dataRowsOf, hmap, hfilter1, hfilter2]
  rw [normalizeTableRows_cons_eq h rest hdata2]
  have hCh : countTableColumns h = countTableColumns hdr := by
    rw [hH]
    exact countTableColumns_normalizeTableRow hdr _ hdrpipe hC
  rw [hCh, if_neg (by omega)]
  have e1 : normalizeTableRow h (countTableColumns hdr) = h := by
    rw [hH]
    exact normalizeTableRow_idem hdr _ hdrpipe hC
  have e3 : rest.map (fun r => normalizeTableRow r (countTableColumns hdr)) = rest := by
    rw [hR, List.map_map]
    apply List.map_congr_left
    intro r hr
    simp only [Function.comp_apply]
    exact normalizeTableRow_idem r _ (hrsprops r hr) hC
  rw [e1, e3, ← hS]

/-- Witness for the amended C7: the output of normalizing
`["| A | B |", "| 1 | 2 | 3 |"]` contains no accidental separator-shaped
data row, so a second run reproduces it exactly. -/
theorem claim7_witness :
    normalizeTableRows
      [toL "| A | B |", toL "| --- | --- |", toL "| 1 | 2 | 3 |"] =
      some [toL "| A | B |", toL "| --- | --- |", toL "| 1 | 2 | 3 |"] :=
  claim7_amended [toL "| A | B |", toL "| 1 | 2 | 3 |"]
    (toL "| A | B |") (toL "| --- | --- |") [toL "| 1 | 2 | 3 |"]
    (by decide) (by decide)
    (by intro r hr; rw [List.mem_singleton] at hr; rw [hr]; decide)

end MDTable
